import Mathlib

/-!
Shallow embedding of the MSCS532_Assignment4 priority-queue and scheduler core
(`src/task.py`, `src/priority_queue.py`, `src/scheduler.py`), together with
theorems settling the specification claims about it.

Python floats are modelled as rationals (`Rat`); the arithmetic the code
performs on them (addition, subtraction, division, comparison) is exact on the
inputs the claims discuss.  Python in-place mutation is modelled by explicit
state passing; the generic heap is instantiated at its `Task` payload with the
default key function (`x.priority` for a `Task`), which is the only
instantiation the scheduler and the claims exercise.
-/

namespace Assignment4

/-- The `Task` dataclass of `src/task.py`: identifier, mutable integer
priority, arrival time, optional deadline, execution time, description. -/
structure Task where
  task_id : String
  priority : Int
  arrival_time : Rat
  deadline : Option Rat
  execution_time : Rat
  description : String
deriving DecidableEq, Repr, Inhabited

/-- Default element used for (always in-bounds) list indexing. -/
def dT : Task := ⟨"", 0, 0, none, 1, ""⟩

/-- The comparison `_compare` of `PriorityQueue` performs on extracted keys:
strict greater-than in max-heap mode, strict less-than in min-heap mode. -/
def cmpP (is_max : Bool) (a b : Int) : Bool :=
  if is_max then decide (a > b) else decide (a < b)

/-- `PriorityQueue._compare` specialised to `Task` items under the default
key function, which extracts `priority`. -/
def cmpT (is_max : Bool) (a b : Task) : Bool :=
  cmpP is_max a.priority b.priority

/-- Python parent index `(i - 1) // 2`. -/
def parentIdx (i : Nat) : Nat := (i - 1) / 2

/-- Exchange the entries at indices `i` and `j`, the effect of the Python
parallel assignment `heap[i], heap[j] = heap[j], heap[i]`. -/
def swapL (h : List Task) (i j : Nat) : List Task :=
  (h.set i (h.getD j dT)).set j (h.getD i dT)

theorem swapL_length (h : List Task) (i j : Nat) :
    (swapL h i j).length = h.length := by
  simp [swapL]

theorem getD_set_self (h : List Task) (i : Nat) (v : Task) (hi : i < h.length) :
    (h.set i v).getD i dT = v := by
  simp [List.getD_eq_getElem?_getD, List.getElem?_set, hi]

theorem getD_set_ne (h : List Task) (i k : Nat) (v : Task) (hk : k ≠ i) :
    (h.set i v).getD k dT = h.getD k dT := by
  simp [List.getD_eq_getElem?_getD, List.getElem?_set, hk, Ne.symm hk]

theorem getD_swapL (h : List Task) (i j k : Nat) (hi : i < h.length)
    (hj : j < h.length) :
    (swapL h i j).getD k dT =
      if k = j then h.getD i dT
      else if k = i then h.getD j dT else h.getD k dT := by
  unfold swapL
  by_cases hkj : k = j
  · subst hkj
    rw [getD_set_self _ _ _ (by simpa using hj)]
    simp
  · by_cases hki : k = i
    · subst hki
      rw [getD_set_ne _ _ _ _ hkj, getD_set_self _ _ _ hi]
      simp [hkj]
    · rw [getD_set_ne _ _ _ _ hkj, getD_set_ne _ _ _ _ hki]
      simp [hkj, hki]

theorem getD_cons_set_perm (t : List Task) (j : Nat) (hj : j < t.length)
    (x : Task) : List.Perm ((t.getD j dT) :: t.set j x) (x :: t) := by
  induction t generalizing j with
  | nil => simp at hj
  | cons y s ih =>
    cases j with
    | zero => simpa using List.Perm.swap x y s
    | succ j =>
      have hj' : j < s.length := by simpa using hj
      exact ((List.Perm.swap y (s.getD j dT) (s.set j x)).trans
        ((ih j hj').cons y)).trans (List.Perm.swap x y s)

theorem swapL_perm (h : List Task) (i j : Nat) (hi : i < h.length)
    (hj : j < h.length) : List.Perm (swapL h i j) h := by
  induction h generalizing i j with
  | nil => simp at hi
  | cons x t ih =>
    cases i with
    | zero =>
      cases j with
      | zero => simp [swapL]
      | succ j =>
        have hj' : j < t.length := by simpa using hj
        simpa [swapL, List.getD_cons_succ, List.getD_cons_zero] using
          getD_cons_set_perm t j hj' x
    | succ i =>
      cases j with
      | zero =>
        have hi' : i < t.length := by simpa using hi
        simpa [swapL, List.getD_cons_succ, List.getD_cons_zero] using
          getD_cons_set_perm t i hi' x
      | succ j =>
        have hi' : i < t.length := by simpa using hi
        have hj' : j < t.length := by simpa using hj
        simpa [swapL, List.getD_cons_succ] using (ih i j hi' hj').cons x

theorem cmpP_irrefl (m : Bool) (a : Int) : cmpP m a a = false := by
  cases m <;> simp [cmpP]

theorem cmpP_asymm (m : Bool) (a b : Int) (hab : cmpP m a b = true) :
    cmpP m b a = false := by
  cases m <;> simp_all [cmpP] <;> omega

theorem cmpP_le_trans (m : Bool) (a b c : Int) (hab : cmpP m a b = false)
    (hbc : cmpP m b c = false) : cmpP m a c = false := by
  cases m <;> simp_all [cmpP] <;> omega

theorem cmpP_le_lt (m : Bool) (a b c : Int) (hab : cmpP m a b = false)
    (hcb : cmpP m c b = true) : cmpP m a c = false := by
  cases m <;> simp_all [cmpP] <;> omega

theorem cmpP_of_not_of_ne (m : Bool) (a b : Int) (hba : cmpP m b a = false)
    (hne : a ≠ b) : cmpP m a b = true := by
  cases m <;> simp_all [cmpP] <;> omega

/-- The binary-heap invariant of the specification: no non-root entry
displaces its parent under the configured ordering. -/
def IsHeap (m : Bool) (h : List Task) : Prop :=
  ∀ j, j < h.length → 0 < j →
    cmpT m (h.getD j dT) (h.getD (parentIdx j) dT) = false

instance (m : Bool) (h : List Task) : Decidable (IsHeap m h) := by
  unfold IsHeap
  infer_instance

/-- The sift-up loop of `PriorityQueue._heapify_up`: while not at the root,
swap with the parent as long as the entry displaces it. -/
def heapifyUp (m : Bool) (h : List Task) (i : Nat) : List Task :=
  if i = 0 then h
  else if cmpT m (h.getD i dT) (h.getD (parentIdx i) dT) then
    heapifyUp m (swapL h i (parentIdx i)) (parentIdx i)
  else h
termination_by i
decreasing_by simp only [parentIdx]; omega

/-- The child-selection step of `PriorityQueue._heapify_down`: starting from
`i`, move to the left child if it displaces the current candidate, then to the
right child if it displaces the candidate chosen so far. -/
def selChild (m : Bool) (h : List Task) (i : Nat) : Nat :=
  let n := h.length
  let c1 := if 2 * i + 1 < n ∧ cmpT m (h.getD (2 * i + 1) dT) (h.getD i dT)
    then 2 * i + 1 else i
  if 2 * i + 2 < n ∧ cmpT m (h.getD (2 * i + 2) dT) (h.getD c1 dT)
    then 2 * i + 2 else c1

theorem selChild_lt_of_ne (m : Bool) (h : List Task) (i : Nat)
    (hne : selChild m h i ≠ i) :
    i < selChild m h i ∧ selChild m h i < h.length := by
  unfold selChild at *
  dsimp only at *
  split_ifs at * <;> simp_all <;> omega

/-- The sift-down loop of `PriorityQueue._heapify_down`: select the child that
should be the new parent; stop when that is the current node, otherwise swap
and continue from the child's position. -/
def heapifyDown (m : Bool) (h : List Task) (i : Nat) : List Task :=
  if hs : selChild m h i = i then h
  else heapifyDown m (swapL h i (selChild m h i)) (selChild m h i)
termination_by h.length - i
decreasing_by
  rw [swapL_length]
  have := selChild_lt_of_ne m h i hs
  omega

theorem heapifyUp_length (m : Bool) (h : List Task) (i : Nat) :
    (heapifyUp m h i).length = h.length := by
  induction h, i using heapifyUp.induct m with
  | case1 h => simp [heapifyUp]
  | case2 h i h0 hc ih =>
    rw [heapifyUp, if_neg h0, if_pos hc, ih, swapL_length]
  | case3 h i h0 hc =>
    rw [heapifyUp, if_neg h0, if_neg hc]

theorem heapifyUp_perm (m : Bool) (h : List Task) (i : Nat)
    (hi : i < h.length) : List.Perm (heapifyUp m h i) h := by
  induction h, i using heapifyUp.induct m with
  | case1 h => simp [heapifyUp]
  | case2 h i h0 hc ih =>
    rw [heapifyUp, if_neg h0, if_pos hc]
    have hp : parentIdx i < h.length := by
      simp only [parentIdx]; omega
    have hp2 : parentIdx i < (swapL h i (parentIdx i)).length := by
      rw [swapL_length]; exact hp
    exact (ih hp2).trans (swapL_perm h i (parentIdx i) hi hp)
  | case3 h i h0 hc =>
    rw [heapifyUp, if_neg h0, if_neg hc]

theorem heapifyDown_length (m : Bool) (h : List Task) (i : Nat) :
    (heapifyDown m h i).length = h.length := by
  induction h, i using heapifyDown.induct m with
  | case1 h i hs => rw [heapifyDown, dif_pos hs]
  | case2 h i hs ih =>
    rw [heapifyDown, dif_neg hs, ih, swapL_length]

theorem heapifyDown_perm (m : Bool) (h : List Task) (i : Nat) :
    List.Perm (heapifyDown m h i) h := by
  induction h, i using heapifyDown.induct m with
  | case1 h i hs => rw [heapifyDown, dif_pos hs]
  | case2 h i hs ih =>
    rw [heapifyDown, dif_neg hs]
    have hlt := selChild_lt_of_ne m h i hs
    exact ih.trans (swapL_perm h i (selChild m h i) (by omega) hlt.2)

theorem cmpP_lt_trans (m : Bool) (a b c : Int) (hab : cmpP m a b = true)
    (hbc : cmpP m b c = true) : cmpP m a c = true := by
  cases m <;> simp_all [cmpP] <;> omega

theorem cmpT_irrefl (m : Bool) (a : Task) : cmpT m a a = false :=
  cmpP_irrefl m a.priority

theorem cmpT_asymm (m : Bool) (a b : Task) (hab : cmpT m a b = true) :
    cmpT m b a = false :=
  cmpP_asymm m a.priority b.priority hab

theorem cmpT_le_trans (m : Bool) (a b c : Task) (hab : cmpT m a b = false)
    (hbc : cmpT m b c = false) : cmpT m a c = false :=
  cmpP_le_trans m a.priority b.priority c.priority hab hbc

theorem cmpT_le_lt (m : Bool) (a b c : Task) (hab : cmpT m a b = false)
    (hcb : cmpT m c b = true) : cmpT m a c = false :=
  cmpP_le_lt m a.priority b.priority c.priority hab hcb

theorem cmpT_lt_trans (m : Bool) (a b c : Task) (hab : cmpT m a b = true)
    (hbc : cmpT m b c = true) : cmpT m a c = true :=
  cmpP_lt_trans m a.priority b.priority c.priority hab hbc

theorem selChild_eq_spec (m : Bool) (h : List Task) (i : Nat)
    (heq : selChild m h i = i) :
    ∀ c, c < h.length → parentIdx c = i → 0 < c →
      cmpT m (h.getD c dT) (h.getD i dT) = false := by
  intro c hc hpc hc0
  have hchild : c = 2 * i + 1 ∨ c = 2 * i + 2 := by
    simp only [parentIdx] at hpc
    omega
  unfold selChild at heq
  dsimp only at heq
  split_ifs at heq with hc1 hc2 hc2
  · omega
  · omega
  · omega
  · rcases hchild with hl | hr
    · subst hl
      by_contra hcontra
      exact hc1 ⟨hc, by simpa using hcontra⟩
    · subst hr
      by_contra hcontra
      exact hc2 ⟨hc, by simpa using hcontra⟩

theorem selChild_spec_ne (m : Bool) (h : List Task) (i : Nat)
    (hne : selChild m h i ≠ i) :
    parentIdx (selChild m h i) = i ∧ i < selChild m h i ∧
    selChild m h i < h.length ∧
    cmpT m (h.getD (selChild m h i) dT) (h.getD i dT) = true ∧
    ∀ c, c < h.length → parentIdx c = i → 0 < c →
      cmpT m (h.getD c dT) (h.getD (selChild m h i) dT) = false := by
  unfold selChild at *
  dsimp only at *
  split_ifs at * with hc1 hc2 hc2
  · refine ⟨by simp only [parentIdx]; omega, by omega, hc2.1,
      cmpT_lt_trans m _ _ _ hc2.2 hc1.2, ?_⟩
    intro c hc hpc hc0
    have hchild : c = 2 * i + 1 ∨ c = 2 * i + 2 := by
      simp only [parentIdx] at hpc
      omega
    rcases hchild with hl | hr
    · subst hl
      exact cmpT_asymm m _ _ hc2.2
    · subst hr
      exact cmpT_irrefl m _
  · refine ⟨by simp only [parentIdx]; omega, by omega, hc1.1, hc1.2, ?_⟩
    intro c hc hpc hc0
    have hchild : c = 2 * i + 1 ∨ c = 2 * i + 2 := by
      simp only [parentIdx] at hpc
      omega
    rcases hchild with hl | hr
    · subst hl
      exact cmpT_irrefl m _
    · subst hr
      by_contra hcontra
      exact hc2 ⟨hc, by simpa using hcontra⟩
  · refine ⟨by simp only [parentIdx]; omega, by omega, hc2.1, hc2.2, ?_⟩
    intro c hc hpc hc0
    have hchild : c = 2 * i + 1 ∨ c = 2 * i + 2 := by
      simp only [parentIdx] at hpc
      omega
    rcases hchild with hl | hr
    · subst hl
      have hlI : cmpT m (h.getD (2 * i + 1) dT) (h.getD i dT) = false := by
        by_contra hcontra
        exact hc1 ⟨hc, by simpa using hcontra⟩
      exact cmpT_le_lt m _ _ _ hlI hc2.2
    · subst hr
      exact cmpT_irrefl m _
  · exact absurd rfl hne

/-- All heap edges are ordered except possibly the one from `i` up to its
parent (the state sift-up repairs). -/
def HeapExceptAt (m : Bool) (h : List Task) (i : Nat) : Prop :=
  ∀ j, j < h.length → 0 < j → j ≠ i →
    cmpT m (h.getD j dT) (h.getD (parentIdx j) dT) = false

/-- All heap edges are ordered except possibly those from the children of `i`
up to `i` (the state sift-down repairs). -/
def HeapExceptBelow (m : Bool) (h : List Task) (i : Nat) : Prop :=
  ∀ j, j < h.length → 0 < j → parentIdx j ≠ i →
    cmpT m (h.getD j dT) (h.getD (parentIdx j) dT) = false

/-- When `i` is not the root, the children of `i` do not displace the parent
of `i`; this lets the entry at `i` move without breaking the edges around it. -/
def ChildrenFit (m : Bool) (h : List Task) (i : Nat) : Prop :=
  0 < i → ∀ c, c < h.length → parentIdx c = i →
    cmpT m (h.getD c dT) (h.getD (parentIdx i) dT) = false

theorem heapifyUp_isHeap (m : Bool) (h : List Task) (i : Nat)
    (hi : i < h.length) (hA : HeapExceptAt m h i) (hF : ChildrenFit m h i) :
    IsHeap m (heapifyUp m h i) := by
  induction h, i using heapifyUp.induct m with
  | case1 h =>
    rw [heapifyUp, if_pos rfl]
    intro j hj hj0
    exact hA j hj hj0 (by omega)
  | case2 h i h0 hc ih =>
    rw [heapifyUp, if_neg h0, if_pos hc]
    have hp : parentIdx i < i := by simp only [parentIdx]; omega
    have hpn : parentIdx i < h.length := by omega
    have hg : ∀ k, (swapL h i (parentIdx i)).getD k dT =
        if k = parentIdx i then h.getD i dT
        else if k = i then h.getD (parentIdx i) dT else h.getD k dT :=
      fun k => getD_swapL h i (parentIdx i) k hi hpn
    apply ih
    · rw [swapL_length]; exact hpn
    · -- the displaced edge is now the one from the parent position upward
      intro j hj hj0 hjp
      rw [swapL_length] at hj
      rw [hg j, hg (parentIdx j)]
      by_cases hji : j = i
      · subst hji
        rw [if_neg (by omega), if_pos rfl, if_pos rfl]
        exact cmpT_asymm m _ _ hc
      · have hjpar : parentIdx j ≠ j := fun hcon => by
          have : 0 < j := hj0
          simp only [parentIdx] at hcon
          omega
        by_cases hpj : parentIdx j = i
        · -- j was a child of i; its entry now sits below the old parent entry
          rw [if_neg hjp, if_neg hji, if_neg (by omega), if_pos hpj]
          have := hF (by omega) j hj hpj
          exact this
        · by_cases hpj2 : parentIdx j = parentIdx i
          · -- j is the sibling of i (or another child of the parent)
            rw [if_neg hjp, if_neg hji, if_pos hpj2]
            exact cmpT_le_lt m _ _ _ (hA j hj hj0 hji) (by rw [← hpj2] at hc; exact hc)
          · rw [if_neg hjp, if_neg hji, if_neg hpj2, if_neg hpj]
            exact hA j hj hj0 hji
    · -- children of the parent position still fit below the grandparent
      intro hp0 c hc hpc
      rw [swapL_length] at hc
      have hgp : parentIdx (parentIdx i) < parentIdx i := by
        simp only [parentIdx] at hp0 ⊢; omega
      have hcgt : parentIdx i < c := by
        simp only [parentIdx] at hpc hp0 ⊢; omega
      have hc0 : 0 < c := by omega
      have hgp_ne_p : parentIdx (parentIdx i) ≠ parentIdx i := by omega
      have hgp_ne_i : parentIdx (parentIdx i) ≠ i := by omega
      have hc_ne_p : c ≠ parentIdx i := by omega
      rw [hg c, hg (parentIdx (parentIdx i))]
      rw [if_neg hc_ne_p]
      by_cases hci : c = i
      · subst hci
        rw [if_pos rfl, if_neg hgp_ne_p, if_neg hgp_ne_i]
        exact hA (parentIdx c) hpn hp0 (by omega)
      · rw [if_neg hci, if_neg hgp_ne_p, if_neg hgp_ne_i]
        exact cmpT_le_trans m _ _ _
          (by have := hA c hc hc0 hci; rw [hpc] at this; exact this)
          (hA (parentIdx i) hpn hp0 (by omega))
  | case3 h i h0 hc =>
    rw [heapifyUp, if_neg h0, if_neg hc]
    intro j hj hj0
    by_cases hji : j = i
    · subst hji
      simpa using hc
    · exact hA j hj hj0 hji

theorem heapifyDown_isHeap (m : Bool) (h : List Task) (i : Nat)
    (hB : HeapExceptBelow m h i) (hF : ChildrenFit m h i) :
    IsHeap m (heapifyDown m h i) := by
  induction h, i using heapifyDown.induct m with
  | case1 h i hs =>
    rw [heapifyDown, dif_pos hs]
    intro j hj hj0
    by_cases hpj : parentIdx j = i
    · have := selChild_eq_spec m h i hs j hj hpj hj0
      rw [hpj]
      exact this
    · exact hB j hj hj0 hpj
  | case2 h i hs ih =>
    rw [heapifyDown, dif_neg hs]
    obtain ⟨hpar, hgt, hlt, hdisp, hsib⟩ := selChild_spec_ne m h i hs
    have hi : i < h.length := by omega
    have hg : ∀ k, (swapL h i (selChild m h i)).getD k dT =
        if k = selChild m h i then h.getD i dT
        else if k = i then h.getD (selChild m h i) dT else h.getD k dT :=
      fun k => getD_swapL h i (selChild m h i) k hi hlt
    apply ih
    · -- only the edges below the selected child can now be unordered
      intro j hj hj0 hjp
      rw [swapL_length] at hj
      rw [hg j, hg (parentIdx j)]
      by_cases hjs : j = selChild m h i
      · subst hjs
        rw [if_pos rfl, hpar, if_neg (by omega), if_pos rfl]
        exact cmpT_asymm m _ _ hdisp
      · by_cases hji : j = i
        · subst hji
          have hpi : parentIdx j < j := by
            simp only [parentIdx] at *; omega
          rw [if_neg hjs, if_pos rfl, if_neg (by omega), if_neg (by omega)]
          exact hF hj0 (selChild m h j) hlt hpar
        · rw [if_neg hjs, if_neg hji]
          by_cases hpj : parentIdx j = i
          · rw [if_neg (by omega), if_pos hpj]
            exact hsib j hj hpj hj0
          · rw [if_neg hjp, if_neg hpj]
            exact hB j hj hj0 hpj
    · -- the children of the selected child fit below the entry moved into it
      intro hs0 c hc hpc
      rw [swapL_length] at hc
      have hcgt : selChild m h i < c := by
        simp only [parentIdx] at hpc ⊢; omega
      have hc0 : 0 < c := by omega
      rw [hg c, hg (parentIdx (selChild m h i))]
      rw [if_neg (by omega), if_neg (by omega), hpar, if_neg (by omega),
        if_pos rfl]
      have := hB c hc hc0 (by omega)
      rw [hpc] at this
      exact this

theorem isHeap_root_dominates (m : Bool) (h : List Task) (hH : IsHeap m h) :
    ∀ j, j < h.length → cmpT m (h.getD j dT) (h.getD 0 dT) = false := by
  intro j
  induction j using Nat.strongRecOn with
  | ind j ih =>
    intro hj
    rcases Nat.eq_zero_or_pos j with h0 | h0
    · subst h0
      exact cmpT_irrefl m _
    · have hp : parentIdx j < j := by simp only [parentIdx]; omega
      exact cmpT_le_trans m _ _ _ (hH j hj h0) (ih (parentIdx j) hp (by omega))

/-- The error condition raised by extraction from an empty heap
(`IndexError` in the source, *EmptyContainer* in the specification). -/
inductive HeapError where
  | emptyContainer
deriving DecidableEq, Repr

/-- Outcome of calling a Python method: it either raises an error or returns
a value normally. -/
inductive PyResult (α : Type) where
  | raised (e : HeapError)
  | returned (v : α)
deriving DecidableEq, Repr

/-- The `PriorityQueue` of `src/priority_queue.py`: a list-backed binary heap
plus its fixed max/min mode, instantiated (as the scheduler and the claims
use it) at `Task` items under the default priority key. -/
structure PriorityQueue where
  heap : List Task
  is_max_heap : Bool
deriving DecidableEq, Repr

/-- A freshly constructed queue: empty backing list, chosen mode. -/
def mkQueue (is_max : Bool) : PriorityQueue := ⟨[], is_max⟩

/-- The heap invariant of a queue under its configured mode. -/
def IsHeapQ (q : PriorityQueue) : Prop := IsHeap q.is_max_heap q.heap

instance (q : PriorityQueue) : Decidable (IsHeapQ q) := by
  unfold IsHeapQ
  infer_instance

/-- `PriorityQueue.is_empty`. -/
def PriorityQueue.is_empty (q : PriorityQueue) : Bool :=
  decide (q.heap.length = 0)

/-- `PriorityQueue.size`. -/
def PriorityQueue.size (q : PriorityQueue) : Nat := q.heap.length

/-- `PriorityQueue.insert`: append the item, then sift it up from the last
index. -/
def PriorityQueue.insert (q : PriorityQueue) (item : Task) : PriorityQueue :=
  { q with heap := heapifyUp q.is_max_heap (q.heap ++ [item]) q.heap.length }

/-- The root-replacement step shared by both extraction methods: move the
last entry into the root slot and shrink the store by one
(`self.heap[0] = self.heap.pop()`). -/
def popSwap (h : List Task) : List Task :=
  (h.dropLast).set 0 (h.getD (h.length - 1) dT)

/-- `PriorityQueue.extract_max`: raise on an empty heap; return the sole
element of a singleton heap; otherwise return the root, move the last entry
into its place and sift it down. -/
def PriorityQueue.extract_max (q : PriorityQueue) :
    PyResult (Task × PriorityQueue) :=
  if q.is_empty then .raised .emptyContainer
  else if q.heap.length = 1 then
    .returned (q.heap.getD 0 dT, { q with heap := [] })
  else
    .returned (q.heap.getD 0 dT,
      { q with heap := heapifyDown q.is_max_heap (popSwap q.heap) 0 })

/-- `PriorityQueue.extract_min`: its body is line-for-line the body of
`extract_max` (both defer the ordering to `_compare`, which consults the
configured mode). -/
def PriorityQueue.extract_min (q : PriorityQueue) :
    PyResult (Task × PriorityQueue) :=
  if q.is_empty then .raised .emptyContainer
  else if q.heap.length = 1 then
    .returned (q.heap.getD 0 dT, { q with heap := [] })
  else
    .returned (q.heap.getD 0 dT,
      { q with heap := heapifyDown q.is_max_heap (popSwap q.heap) 0 })

/-- `PriorityQueue.peek`: returns `None` on an empty heap (it never raises),
otherwise returns the root without mutation. -/
def PriorityQueue.peek (q : PriorityQueue) : PyResult (Option Task) :=
  if q.is_empty then .returned none else .returned (some (q.heap.getD 0 dT))

/-- The `Task.__eq__` comparison of `src/task.py` restricted to two tasks:
tasks compare equal exactly when their priorities coincide. -/
def taskEqB (a b : Task) : Bool := a.priority == b.priority

/-- Python `list.index(item)`: index of the first entry comparing equal to
`item` under `Task.__eq__`, or `None` (the `ValueError` branch) if there is
none. -/
def indexOfEq (h : List Task) (item : Task) : Option Nat :=
  match h with
  | [] => none
  | x :: xs => if taskEqB x item then some 0 else (indexOfEq xs item).map (· + 1)

/-- `PriorityQueue.increase_key`: locate the first entry comparing equal to
`item` (a value-equality scan), mutate the priority of the very object the
caller passed, then sift up from the located index.  `pos` makes the aliasing
of Python's in-place mutation explicit: it is the heap slot holding the
object the caller passed (`none` when that object is not stored in the heap);
`item.update_priority` rewrites exactly that slot. -/
def PriorityQueue.increase_key (q : PriorityQueue) (item : Task)
    (pos : Option Nat) (new_priority : Int) : PriorityQueue × Bool :=
  match indexOfEq q.heap item with
  | none => (q, false)
  | some i =>
    let h1 := match pos with
      | some j => q.heap.set j { q.heap.getD j dT with priority := new_priority }
      | none => q.heap
    ({ q with heap := heapifyUp q.is_max_heap h1 i }, true)

/-- `PriorityQueue.decrease_key`: same value-equality scan and in-place
priority mutation as `increase_key`, but sifting down from the located
index. -/
def PriorityQueue.decrease_key (q : PriorityQueue) (item : Task)
    (pos : Option Nat) (new_priority : Int) : PriorityQueue × Bool :=
  match indexOfEq q.heap item with
  | none => (q, false)
  | some i =>
    let h1 := match pos with
      | some j => q.heap.set j { q.heap.getD j dT with priority := new_priority }
      | none => q.heap
    ({ q with heap := heapifyDown q.is_max_heap h1 i }, true)

theorem getD_append_lt (h : List Task) (t : Task) (k : Nat)
    (hk : k < h.length) : (h ++ [t]).getD k dT = h.getD k dT := by
  rw [List.getD_append]
  omega

theorem getD_append_self (h : List Task) (t : Task) :
    (h ++ [t]).getD h.length dT = t := by
  simp [List.getD_eq_getElem?_getD]

theorem insert_isHeap (q : PriorityQueue) (t : Task) (hq : IsHeapQ q) :
    IsHeapQ (q.insert t) := by
  unfold IsHeapQ PriorityQueue.insert at *
  apply heapifyUp_isHeap
  · simp
  · intro j hj hj0 hjn
    simp only [List.length_append, List.length_cons, List.length_nil] at hj
    have hjlt : j < q.heap.length := by omega
    have hplt : parentIdx j < q.heap.length := by
      simp only [parentIdx]; omega
    rw [getD_append_lt _ _ _ hjlt, getD_append_lt _ _ _ hplt]
    exact hq j hjlt hj0
  · intro h0 c hc hpc
    simp only [List.length_append, List.length_cons, List.length_nil] at hc
    simp only [parentIdx] at hpc
    omega

theorem popSwap_length (h : List Task) : (popSwap h).length = h.length - 1 := by
  simp [popSwap]

theorem getD_popSwap (h : List Task) (k : Nat) (hk : k < h.length - 1) :
    (popSwap h).getD k dT =
      if k = 0 then h.getD (h.length - 1) dT else h.getD k dT := by
  unfold popSwap
  by_cases hk0 : k = 0
  · subst hk0
    rw [getD_set_self _ _ _ (by simp; omega)]
    simp
  · rw [getD_set_ne _ _ _ _ hk0, if_neg hk0]
    have hk' : k < h.dropLast.length := by simp; omega
    have hkh : k < h.length := by omega
    rw [List.getD_eq_getElem _ _ hk', List.getD_eq_getElem _ _ hkh]
    exact List.getElem_dropLast h k hk'

theorem popSwap_perm (h : List Task) (hn : 2 ≤ h.length) :
    List.Perm ((h.getD 0 dT) :: popSwap h) h := by
  cases h with
  | nil => simp at hn
  | cons a tl =>
    have htl : tl ≠ [] := by
      intro hcon
      subst hcon
      simp at hn
    have hlast : (a :: tl).getD ((a :: tl).length - 1) dT = tl.getLast htl := by
      have hpos : 0 < tl.length := List.length_pos.mpr htl
      have h1 : (a :: tl).length - 1 = tl.length - 1 + 1 := by
        simp only [List.length_cons]
        omega
      rw [h1, List.getD_cons_succ]
      have h2 : tl.length - 1 < tl.length := by
        cases tl
        · exact absurd rfl htl
        · simp
      rw [List.getD_eq_getElem _ _ h2, List.getLast_eq_getElem tl htl]
    unfold popSwap
    rw [hlast, List.dropLast_cons_of_ne_nil htl]
    simp only [List.getD_cons_zero, List.set_cons_zero]
    refine List.Perm.cons a ?_
    have hps := (List.perm_append_singleton (tl.getLast htl) tl.dropLast).symm
    have h3 : tl.dropLast ++ [tl.getLast htl] = tl :=
      List.dropLast_append_getLast htl
    refine hps.trans ?_
    rw [h3]

theorem extract_max_raised (q : PriorityQueue) (e : HeapError)
    (hE : q.extract_max = .raised e) : q.heap = [] := by
  unfold PriorityQueue.extract_max PriorityQueue.is_empty at hE
  split_ifs at hE with h0 h1
  exact List.length_eq_zero.mp (by simpa using h0)

theorem extract_max_shape (q : PriorityQueue) (t : Task) (q' : PriorityQueue)
    (hE : q.extract_max = .returned (t, q')) :
    t = q.heap.getD 0 dT ∧ List.Perm (t :: q'.heap) q.heap ∧
    q'.heap.length = q.heap.length - 1 ∧ q'.is_max_heap = q.is_max_heap := by
  unfold PriorityQueue.extract_max PriorityQueue.is_empty at hE
  split_ifs at hE with h0 h1
  · simp only [PyResult.returned.injEq, Prod.mk.injEq] at hE
    obtain ⟨ht, hq'⟩ := hE
    subst ht
    subst hq'
    obtain ⟨a, ha⟩ := List.length_eq_one.mp h1
    refine ⟨rfl, ?_, by simp [h1], rfl⟩
    rw [ha]
    simp
  · simp only [PyResult.returned.injEq, Prod.mk.injEq] at hE
    obtain ⟨ht, hq'⟩ := hE
    subst ht
    subst hq'
    have hn : 2 ≤ q.heap.length := by
      simp only [decide_eq_true_eq] at h0
      omega
    refine ⟨rfl, ?_, ?_, rfl⟩
    · exact (List.Perm.cons _ (heapifyDown_perm _ _ _)).trans
        (popSwap_perm q.heap hn)
    · simp only [heapifyDown_length, popSwap_length]

theorem extract_max_isHeap (q : PriorityQueue) (t : Task) (q' : PriorityQueue)
    (hq : IsHeapQ q) (hE : q.extract_max = .returned (t, q')) :
    IsHeapQ q' := by
  unfold PriorityQueue.extract_max PriorityQueue.is_empty at hE
  split_ifs at hE with h0 h1
  · simp only [PyResult.returned.injEq, Prod.mk.injEq] at hE
    obtain ⟨ht, hq'⟩ := hE
    subst hq'
    exact fun j hj hj0 => absurd hj (by simp)
  · simp only [PyResult.returned.injEq, Prod.mk.injEq] at hE
    obtain ⟨ht, hq'⟩ := hE
    subst hq'
    have hn : 2 ≤ q.heap.length := by
      simp only [decide_eq_true_eq] at h0
      omega
    have hB : HeapExceptBelow q.is_max_heap (popSwap q.heap) 0 := by
      intro j hj hj0 hpj
      rw [popSwap_length] at hj
      have hpar_lt : parentIdx j < j := by
        simp only [parentIdx]; omega
      rw [getD_popSwap _ _ hj, getD_popSwap _ _ (by omega)]
      rw [if_neg (by omega), if_neg hpj]
      exact hq j (by omega) hj0
    have hF : ChildrenFit q.is_max_heap (popSwap q.heap) 0 := by
      intro hcon
      exact absurd hcon (by omega)
    exact heapifyDown_isHeap _ _ _ hB hF

theorem extract_max_length_lt (q : PriorityQueue) (t : Task)
    (q' : PriorityQueue) (hE : q.extract_max = .returned (t, q')) :
    q'.heap.length < q.heap.length := by
  unfold PriorityQueue.extract_max PriorityQueue.is_empty at hE
  split_ifs at hE with h0 h1
  · simp only [PyResult.returned.injEq, Prod.mk.injEq] at hE
    obtain ⟨ht, hq'⟩ := hE
    subst hq'
    simp only [List.length_nil, h1]
    omega
  · simp only [PyResult.returned.injEq, Prod.mk.injEq] at hE
    obtain ⟨ht, hq'⟩ := hE
    subst hq'
    simp only [decide_eq_true_eq] at h0
    show (heapifyDown q.is_max_heap (popSwap q.heap) 0).length < q.heap.length
    rw [heapifyDown_length, popSwap_length]
    omega

/-- Repeated extraction until the heap is empty, listing the extracted items
in order; the draining loop the claims describe. -/
def drain (q : PriorityQueue) : List Task :=
  match hE : q.extract_max with
  | .raised _ => []
  | .returned (t, q') => t :: drain q'
termination_by q.heap.length
decreasing_by exact extract_max_length_lt q t q' hE

theorem drain_perm (q : PriorityQueue) : List.Perm (drain q) q.heap := by
  induction q using drain.induct with
  | case1 q e hE =>
    rw [drain, hE]
    rw [extract_max_raised q e hE]
  | case2 q t q' hE ih =>
    rw [drain, hE]
    obtain ⟨_, hperm, _, _⟩ := extract_max_shape q t q' hE
    exact (ih.cons t).trans hperm

theorem drain_length (q : PriorityQueue) : (drain q).length = q.heap.length :=
  (drain_perm q).length_eq

theorem drain_sorted (q : PriorityQueue) (hq : IsHeapQ q) :
    List.Pairwise (fun a b => cmpT q.is_max_heap b a = false) (drain q) := by
  induction q using drain.induct with
  | case1 q e hE =>
    rw [drain, hE]
    exact List.Pairwise.nil
  | case2 q t q' hE ih =>
    rw [drain, hE]
    obtain ⟨hroot, hperm, _, hmode⟩ := extract_max_shape q t q' hE
    have hq' : IsHeapQ q' := extract_max_isHeap q t q' hq hE
    refine List.Pairwise.cons ?_ ?_
    · intro x hx
      have hx2 : x ∈ q.heap := hperm.mem_iff.mp (by
        exact List.mem_cons_of_mem t ((drain_perm q').mem_iff.mp hx))
      obtain ⟨j, hj, hgj⟩ := List.mem_iff_getElem.mp hx2
      have := isHeap_root_dominates q.is_max_heap q.heap hq j hj
      rw [List.getD_eq_getElem _ _ hj, hgj] at this
      rw [hroot]
      exact this
    · have := ih hq'
      rw [hmode] at this
      exact this

/-- Insert the tasks of `ts` in order into a fresh queue of mode `m`; the
loop `for task in tasks: self.priority_queue.insert(task)` started from a
freshly constructed queue. -/
def buildQueue (m : Bool) (ts : List Task) : PriorityQueue :=
  ts.foldl PriorityQueue.insert (mkQueue m)

theorem insert_mode (q : PriorityQueue) (t : Task) :
    (q.insert t).is_max_heap = q.is_max_heap := rfl

theorem insert_perm (q : PriorityQueue) (t : Task) :
    List.Perm (q.insert t).heap (t :: q.heap) := by
  unfold PriorityQueue.insert
  refine (heapifyUp_perm _ _ _ (by simp)).trans ?_
  exact List.perm_append_singleton t q.heap

theorem foldl_insert_isHeap (ts : List Task) :
    ∀ q : PriorityQueue, IsHeapQ q → IsHeapQ (ts.foldl PriorityQueue.insert q) := by
  induction ts with
  | nil => exact fun q hq => hq
  | cons t ts ih => exact fun q hq => ih (q.insert t) (insert_isHeap q t hq)

theorem buildQueue_isHeap (m : Bool) (ts : List Task) :
    IsHeapQ (buildQueue m ts) := by
  apply foldl_insert_isHeap
  intro j hj hj0
  simp [mkQueue] at hj

theorem foldl_insert_perm (ts : List Task) :
    ∀ q : PriorityQueue,
      List.Perm (ts.foldl PriorityQueue.insert q).heap (ts ++ q.heap) := by
  induction ts with
  | nil => exact fun q => List.Perm.refl q.heap
  | cons t ts ih =>
    intro q
    refine (ih (q.insert t)).trans ?_
    refine ((insert_perm q t).append_left ts).trans ?_
    exact List.perm_middle

theorem buildQueue_perm (m : Bool) (ts : List Task) :
    List.Perm (buildQueue m ts).heap ts := by
  have := foldl_insert_perm ts (mkQueue m)
  simpa [mkQueue] using this

theorem foldl_insert_mode (ts : List Task) :
    ∀ q : PriorityQueue,
      (ts.foldl PriorityQueue.insert q).is_max_heap = q.is_max_heap := by
  induction ts with
  | nil => exact fun q => rfl
  | cons t ts ih => exact fun q => ih (q.insert t)

theorem buildQueue_mode (m : Bool) (ts : List Task) :
    (buildQueue m ts).is_max_heap = m :=
  foldl_insert_mode ts (mkQueue m)

theorem set_priority_up_isHeap (m : Bool) (h : List Task) (i : Nat) (p' : Int)
    (hq : IsHeap m h) (hi : i < h.length)
    (hdir : cmpP m (h.getD i dT).priority p' = false) :
    IsHeap m (heapifyUp m (h.set i { h.getD i dT with priority := p' }) i) := by
  apply heapifyUp_isHeap
  · rw [List.length_set]
    exact hi
  · intro j hj hj0 hji
    rw [List.length_set] at hj
    rw [getD_set_ne _ _ _ _ hji]
    by_cases hpj : parentIdx j = i
    · rw [hpj, getD_set_self _ _ _ hi]
      have hji' := hq j hj hj0
      rw [hpj] at hji'
      simp only [cmpT] at hji' ⊢
      exact cmpP_le_trans m _ _ _ hji' hdir
    · rw [getD_set_ne _ _ _ _ hpj]
      exact hq j hj hj0
  · intro h0 c hc hpc
    rw [List.length_set] at hc
    have hpi_lt : parentIdx i < i := by simp only [parentIdx]; omega
    have hc_gt : i < c := by
      simp only [parentIdx] at hpc
      omega
    rw [getD_set_ne _ _ _ _ (by omega), getD_set_ne _ _ _ _ (by omega)]
    have h1 := hq c hc (by omega)
    rw [hpc] at h1
    exact cmpT_le_trans m _ _ _ h1 (hq i hi h0)

theorem set_priority_down_isHeap (m : Bool) (h : List Task) (i : Nat) (p' : Int)
    (hq : IsHeap m h) (hi : i < h.length)
    (hdir : cmpP m p' (h.getD i dT).priority = false) :
    IsHeap m (heapifyDown m (h.set i { h.getD i dT with priority := p' }) i) := by
  apply heapifyDown_isHeap
  · intro j hj hj0 hpj
    rw [List.length_set] at hj
    by_cases hji : j = i
    · subst hji
      have h0j : 0 < j := hj0
      have hpi_lt : parentIdx j < j := by simp only [parentIdx]; omega
      rw [getD_set_self _ _ _ hi, getD_set_ne _ _ _ _ (by omega)]
      have h1 := hq j hj hj0
      simp only [cmpT] at h1 ⊢
      exact cmpP_le_trans m _ _ _ hdir h1
    · rw [getD_set_ne _ _ _ _ hji, getD_set_ne _ _ _ _ hpj]
      exact hq j hj hj0
  · intro h0 c hc hpc
    rw [List.length_set] at hc
    have hpi_lt : parentIdx i < i := by simp only [parentIdx]; omega
    have hc_gt : i < c := by
      simp only [parentIdx] at hpc
      omega
    rw [getD_set_ne _ _ _ _ (by omega), getD_set_ne _ _ _ _ (by omega)]
    have h1 := hq c hc (by omega)
    rw [hpc] at h1
    exact cmpT_le_trans m _ _ _ h1 (hq i hi h0)

theorem heapifyUp_of_isHeap (m : Bool) (h : List Task) (i : Nat)
    (hq : IsHeap m h) (hi : i < h.length) : heapifyUp m h i = h := by
  rw [heapifyUp]
  split_ifs with h0 hc
  · rfl
  · have := hq i hi (by omega)
    rw [this] at hc
    cases hc
  · rfl

theorem heapifyDown_of_isHeap (m : Bool) (h : List Task) (i : Nat)
    (hq : IsHeap m h) : heapifyDown m h i = h := by
  have hsel : selChild m h i = i := by
    unfold selChild
    dsimp only
    have hl : ¬(2 * i + 1 < h.length ∧
        cmpT m (h.getD (2 * i + 1) dT) (h.getD i dT) = true) := by
      rintro ⟨hlt, hcmp⟩
      have := hq (2 * i + 1) hlt (by omega)
      rw [show parentIdx (2 * i + 1) = i by simp only [parentIdx]; omega] at this
      simp_all
    rw [if_neg hl]
    have hr : ¬(2 * i + 2 < h.length ∧
        cmpT m (h.getD (2 * i + 2) dT) (h.getD i dT) = true) := by
      rintro ⟨hlt, hcmp⟩
      have := hq (2 * i + 2) hlt (by omega)
      rw [show parentIdx (2 * i + 2) = i by simp only [parentIdx]; omega] at this
      simp_all
    rw [if_neg hr]
  rw [heapifyDown, dif_pos hsel]

theorem indexOfEq_some (h : List Task) (item : Task) (i : Nat)
    (hI : indexOfEq h item = some i) :
    i < h.length ∧ taskEqB (h.getD i dT) item = true ∧
    ∀ k, k < i → taskEqB (h.getD k dT) item = false := by
  induction h generalizing i with
  | nil => cases hI
  | cons x xs ih =>
    simp only [indexOfEq] at hI
    by_cases hx : taskEqB x item = true
    · rw [if_pos hx] at hI
      simp only [Option.some.injEq] at hI
      subst hI
      exact ⟨by simp, by simpa using hx, fun k hk => absurd hk (by omega)⟩
    · rw [if_neg hx] at hI
      have hx' : taskEqB x item = false := by simpa using hx
      obtain ⟨i0, hI0, hinc⟩ := Option.map_eq_some'.mp hI
      subst hinc
      obtain ⟨hb, he, hfirst⟩ := ih i0 hI0
      refine ⟨by simpa using hb, by simpa using he, ?_⟩
      intro k hk
      cases k with
      | zero =>
        rw [List.getD_cons_zero]
        exact hx'
      | succ k =>
        rw [List.getD_cons_succ]
        exact hfirst k (by omega)

theorem indexOfEq_none (h : List Task) (item : Task)
    (hI : indexOfEq h item = none) :
    ∀ k, k < h.length → taskEqB (h.getD k dT) item = false := by
  induction h with
  | nil => intro k hk; simp at hk
  | cons x xs ih =>
    simp only [indexOfEq] at hI
    by_cases hx : taskEqB x item = true
    · rw [if_pos hx] at hI
      cases hI
    · rw [if_neg hx] at hI
      have hx' : taskEqB x item = false := by simpa using hx
      have hI' : indexOfEq xs item = none := Option.map_eq_none'.mp hI
      intro k hk
      cases k with
      | zero =>
        rw [List.getD_cons_zero]
        exact hx'
      | succ k =>
        rw [List.getD_cons_succ]
        exact ih hI' k (by simpa using hk)

theorem indexOfEq_getD_of_distinct (h : List Task) (i : Nat)
    (hdist : List.Pairwise (fun a b => a.priority ≠ b.priority) h)
    (hi : i < h.length) : indexOfEq h (h.getD i dT) = some i := by
  induction h generalizing i with
  | nil => simp at hi
  | cons x xs ih =>
    cases i with
    | zero =>
      rw [List.getD_cons_zero]
      simp only [indexOfEq]
      rw [if_pos (by simp [taskEqB])]
    | succ i =>
      have hi' : i < xs.length := by simpa using hi
      have hmem : xs.getD i dT ∈ xs := by
        rw [List.getD_eq_getElem _ _ hi']
        exact List.getElem_mem hi'
      have hne := (List.pairwise_cons.mp hdist).1 _ hmem
      rw [List.getD_cons_succ]
      simp only [indexOfEq]
      rw [if_neg (by simp only [taskEqB, beq_eq_false_iff_ne, ne_eq,
        beq_iff_eq]; exact hne)]
      rw [ih i (List.pairwise_cons.mp hdist).2 hi']
      rfl

theorem increase_key_fst_isHeap (q : PriorityQueue) (item : Task) (p' : Int)
    (hq : IsHeapQ q) (hdir : cmpP q.is_max_heap item.priority p' = false) :
    IsHeapQ (q.increase_key item (indexOfEq q.heap item) p').1 := by
  unfold PriorityQueue.increase_key
  rcases hI : indexOfEq q.heap item with _ | i
  · simp only [hI]
    exact hq
  · simp only [hI]
    obtain ⟨hilt, heq, _⟩ := indexOfEq_some _ _ _ hI
    have hpri : (q.heap.getD i dT).priority = item.priority := by
      simpa [taskEqB] using heq
    exact set_priority_up_isHeap _ _ _ _ hq hilt (by rw [hpri]; exact hdir)

theorem decrease_key_fst_isHeap (q : PriorityQueue) (item : Task) (p' : Int)
    (hq : IsHeapQ q) (hdir : cmpP q.is_max_heap p' item.priority = false) :
    IsHeapQ (q.decrease_key item (indexOfEq q.heap item) p').1 := by
  unfold PriorityQueue.decrease_key
  rcases hI : indexOfEq q.heap item with _ | i
  · simp only [hI]
    exact hq
  · simp only [hI]
    obtain ⟨hilt, heq, _⟩ := indexOfEq_some _ _ _ hI
    have hpri : (q.heap.getD i dT).priority = item.priority := by
      simpa [taskEqB] using heq
    exact set_priority_down_isHeap _ _ _ _ hq hilt (by rw [hpri]; exact hdir)

/-- One public mutating operation on the queue: insert, extract the top, or
update a key through `increase_key` or `decrease_key`. -/
inductive HeapOp where
  | ins (t : Task)
  | ext
  | inc (item : Task) (new_priority : Int)
  | dec (item : Task) (new_priority : Int)
deriving DecidableEq, Repr

/-- Apply one operation through the public entry points.  For the key
updates the caller passes the very object stored in the heap, so the slot
holding it is the first value-equality match — the slot Python's
`heap.index` scan also finds; an extraction raising on an empty heap leaves
the state unchanged (the exception fires before any mutation). -/
def applyOp (q : PriorityQueue) : HeapOp → PriorityQueue
  | .ins t => q.insert t
  | .ext =>
    match q.extract_max with
    | .raised _ => q
    | .returned (_, q') => q'
  | .inc item p' => (q.increase_key item (indexOfEq q.heap item) p').1
  | .dec item p' => (q.decrease_key item (indexOfEq q.heap item) p').1

/-- Side condition under which an operation is direction-correct: a key may
only be handed to the entry point that sifts in the direction the configured
ordering requires (for a max-heap, `increase_key` for a non-decreased key and
`decrease_key` for a non-increased one; mirrored for a min-heap). -/
def OpOK (q : PriorityQueue) : HeapOp → Prop
  | .ins _ => True
  | .ext => True
  | .inc item p' => cmpP q.is_max_heap item.priority p' = false
  | .dec item p' => cmpP q.is_max_heap p' item.priority = false

/-- Apply a finite sequence of operations in order. -/
def applyOps (q : PriorityQueue) (ops : List HeapOp) : PriorityQueue :=
  ops.foldl applyOp q

/-- Every operation of the sequence is direction-correct in the state it
runs in. -/
def OpsOK (q : PriorityQueue) : List HeapOp → Prop
  | [] => True
  | op :: ops => OpOK q op ∧ OpsOK (applyOp q op) ops

theorem applyOp_isHeap (q : PriorityQueue) (op : HeapOp) (hq : IsHeapQ q)
    (hok : OpOK q op) : IsHeapQ (applyOp q op) := by
  cases op with
  | ins t => exact insert_isHeap q t hq
  | ext =>
    unfold applyOp
    rcases hE : q.extract_max with e | ⟨t, q'⟩
    · simp only [hE]
      exact hq
    · simp only [hE]
      exact extract_max_isHeap q t q' hq hE
  | inc item p' => exact increase_key_fst_isHeap q item p' hq hok
  | dec item p' => exact decrease_key_fst_isHeap q item p' hq hok

theorem applyOps_isHeap (ops : List HeapOp) :
    ∀ q : PriorityQueue, IsHeapQ q → OpsOK q ops →
      IsHeapQ (applyOps q ops) := by
  induction ops with
  | nil => exact fun q hq _ => hq
  | cons op ops ih =>
    intro q hq hok
    exact ih (applyOp q op) (applyOp_isHeap q op hq hok.1) hok.2

theorem pairwise_ne_set (h : List Task) (i : Nat) (v : Task)
    (hdist : List.Pairwise (fun a b => a.priority ≠ b.priority) h)
    (hfresh : ∀ k, k < h.length → k ≠ i → (h.getD k dT).priority ≠ v.priority) :
    List.Pairwise (fun a b => a.priority ≠ b.priority) (h.set i v) := by
  rw [List.pairwise_iff_getElem] at hdist ⊢
  intro j k hj hk hjk
  rw [List.length_set] at hj hk
  rw [List.getElem_set, List.getElem_set]
  by_cases hij : i = j
  · subst hij
    rw [if_pos rfl, if_neg (by omega)]
    have := hfresh k hk (by omega)
    rw [List.getD_eq_getElem _ _ hk] at this
    exact this.symm
  · rw [if_neg hij]
    by_cases hik : i = k
    · subst hik
      rw [if_pos rfl]
      have := hfresh j hj (by omega)
      rw [List.getD_eq_getElem _ _ hj] at this
      exact this
    · rw [if_neg hik]
      exact hdist j k hj hk hjk

theorem drain_eq_of_perm (q₁ q₂ : PriorityQueue) (h₁ : IsHeapQ q₁)
    (h₂ : IsHeapQ q₂) (hmode : q₁.is_max_heap = q₂.is_max_heap)
    (hperm : List.Perm q₁.heap q₂.heap)
    (hdist : List.Pairwise (fun a b => a.priority ≠ b.priority) q₁.heap) :
    drain q₁ = drain q₂ := by
  have hsym : Symmetric (fun a b : Task => a.priority ≠ b.priority) :=
    fun a b hab => hab.symm
  have hs₁ := drain_sorted q₁ h₁
  have hs₂ := drain_sorted q₂ h₂
  rw [← hmode] at hs₂
  have hpd : List.Perm (drain q₁) (drain q₂) :=
    (drain_perm q₁).trans (hperm.trans (drain_perm q₂).symm)
  have hd₁ : List.Pairwise (fun a b => a.priority ≠ b.priority) (drain q₁) :=
    ((drain_perm q₁).pairwise_iff (fun hab => hab.symm)).mpr hdist
  have hd₂ : List.Pairwise (fun a b => a.priority ≠ b.priority) (drain q₂) :=
    (hpd.pairwise_iff (fun hab => hab.symm)).mp hd₁
  have hstrict₁ :
      List.Pairwise (fun a b => cmpT q₁.is_max_heap a b = true) (drain q₁) :=
    (hs₁.and hd₁).imp (fun hab => cmpP_of_not_of_ne _ _ _ hab.1 hab.2)
  have hstrict₂ :
      List.Pairwise (fun a b => cmpT q₁.is_max_heap a b = true) (drain q₂) :=
    (hs₂.and hd₂).imp (fun hab => cmpP_of_not_of_ne _ _ _ hab.1 hab.2)
  haveI : IsAntisymm Task (fun a b => cmpT q₁.is_max_heap a b = true) :=
    ⟨fun a b hab hba => by
      have := cmpT_asymm q₁.is_max_heap a b hab
      rw [this] at hba
      cases hba⟩
  exact List.eq_of_perm_of_sorted hpd hstrict₁ hstrict₂

/-- The `SchedulingResult` dataclass of `src/scheduler.py`. -/
structure SchedulingResult where
  task_id : String
  start_time : Rat
  completion_time : Rat
  deadline_met : Bool
  wait_time : Rat
deriving DecidableEq, Repr

/-- The `SchedulingStatistics` dataclass of `src/scheduler.py`. -/
structure SchedulingStatistics where
  total_tasks : Nat
  completed_tasks : Nat
  deadline_met : Nat
  deadline_missed : Nat
  total_execution_time : Rat
  average_wait_time : Rat
  throughput : Rat
deriving DecidableEq, Repr

/-- The mutable state of a `TaskScheduler` instance: its priority queue and
simulated clock. -/
structure TaskScheduler where
  priority_queue : PriorityQueue
  current_time : Rat
deriving DecidableEq, Repr

/-- The extraction loop of `TaskScheduler.schedule_tasks`: while the queue is
non-empty, extract the top task, record its timing metrics, and advance the
clock to its completion time.  The loop guard `while not is_empty()` is
modelled by the `raised` branch of `extract_max`, which fires exactly on the
empty heap. -/
def runLoop (q : PriorityQueue) (clock : Rat) :
    List SchedulingResult × PriorityQueue × Rat :=
  match hE : q.extract_max with
  | .raised _ => ([], q, clock)
  | .returned (task, q') =>
    let start_time := clock
    let wait_time := start_time - task.arrival_time
    let completion_time := start_time + task.execution_time
    let deadline_met := match task.deadline with
      | none => true
      | some d => decide (completion_time ≤ d)
    let rest := runLoop q' completion_time
    ({ task_id := task.task_id, start_time := start_time,
       completion_time := completion_time, deadline_met := deadline_met,
       wait_time := wait_time } :: rest.1, rest.2)
termination_by q.heap.length
decreasing_by exact extract_max_length_lt q task q' hE

/-- `TaskScheduler.schedule_tasks`: discard the prior queue and clock, build
a fresh max-heap from the task list in input order, then run the extraction
loop; the returned scheduler carries the drained queue and final clock. -/
def TaskScheduler.schedule_tasks (s : TaskScheduler) (tasks : List Task) :
    TaskScheduler × List SchedulingResult :=
  let q := buildQueue true tasks
  let r := runLoop q 0
  (⟨r.2.1, r.2.2⟩, r.1)

/-- Python `max` over a non-empty sequence (the code only calls it guarded by
a non-emptiness check; the `[]` branch is unreachable there). -/
def maxList (l : List Rat) : Rat :=
  match l with
  | [] => 0
  | x :: xs => xs.foldl max x

/-- `TaskScheduler.get_statistics`: the pure reduction over a result list,
with the all-zero record on empty input. -/
def get_statistics (results : List SchedulingResult) : SchedulingStatistics :=
  if results.isEmpty then
    { total_tasks := 0, completed_tasks := 0, deadline_met := 0,
      deadline_missed := 0, total_execution_time := 0,
      average_wait_time := 0, throughput := 0 }
  else
    let total_tasks := results.length
    let completed_tasks := results.length
    let met := (results.filter (fun r => r.deadline_met)).length
    let missed := total_tasks - met
    let total_execution_time :=
      if results.isEmpty then (0 : Rat)
      else maxList (results.map (fun r => r.completion_time))
    let average_wait_time :=
      if 0 < total_tasks then
        (results.map (fun r => r.wait_time)).sum / (total_tasks : Rat)
      else 0
    let throughput :=
      if 0 < total_execution_time then
        (completed_tasks : Rat) / total_execution_time
      else 0
    { total_tasks := total_tasks, completed_tasks := completed_tasks,
      deadline_met := met, deadline_missed := missed,
      total_execution_time := total_execution_time,
      average_wait_time := average_wait_time, throughput := throughput }

/-- The scheduling loop as the specification words it (§4.3 step 4): one
result per task in the given extraction order, where each task starts at the
current clock, completes after its execution time, waits since its arrival,
meets its deadline when it has none or completes by it, and the clock then
jumps to the completion time. -/
def specScheduleLoop : List Task → Rat → List SchedulingResult
  | [], _ => []
  | t :: rest, clock =>
    { task_id := t.task_id, start_time := clock,
      completion_time := clock + t.execution_time,
      deadline_met := match t.deadline with
        | none => true
        | some d => decide (clock + t.execution_time ≤ d),
      wait_time := clock - t.arrival_time } ::
      specScheduleLoop rest (clock + t.execution_time)

theorem runLoop_eq_spec (q : PriorityQueue) (clock : Rat) :
    (runLoop q clock).1 = specScheduleLoop (drain q) clock := by
  generalize hn : q.heap.length = n
  induction n using Nat.strongRecOn generalizing q clock with
  | ind n ih =>
    rcases hE : q.extract_max with e | ⟨task, q'⟩
    · rw [runLoop, drain, hE]
      rfl
    · rw [runLoop, drain, hE]
      dsimp only
      simp only [specScheduleLoop]
      have hlt := extract_max_length_lt q task q' hE
      rw [ih q'.heap.length (by omega) q' (clock + task.execution_time) rfl]

theorem specScheduleLoop_length (order : List Task) (c : Rat) :
    (specScheduleLoop order c).length = order.length := by
  induction order generalizing c with
  | nil => rfl
  | cons t rest ih => simp [specScheduleLoop, ih]

theorem specScheduleLoop_clock (order : List Task) (c : Rat)
    (hex : ∀ t ∈ order, 0 ≤ t.execution_time) :
    (∀ r ∈ specScheduleLoop order c, c ≤ r.completion_time) ∧
    List.Pairwise
      (fun a b : SchedulingResult => a.completion_time ≤ b.completion_time)
      (specScheduleLoop order c) := by
  induction order generalizing c with
  | nil =>
    exact ⟨fun r hr => absurd hr (by simp [specScheduleLoop]),
      by simp [specScheduleLoop]⟩
  | cons t rest ih =>
    have hex_t : 0 ≤ t.execution_time := hex t (by simp)
    have hex' : ∀ x ∈ rest, 0 ≤ x.execution_time :=
      fun x hx => hex x (by simp [hx])
    obtain ⟨hlb, hpw⟩ := ih (c + t.execution_time) hex'
    constructor
    · intro r hr
      simp only [specScheduleLoop, List.mem_cons] at hr
      rcases hr with hr | hr
      · subst hr
        dsimp
        linarith
      · have := hlb r hr
        linarith
    · simp only [specScheduleLoop]
      refine List.Pairwise.cons ?_ hpw
      intro r hr
      have := hlb r hr
      dsimp
      linarith

theorem maxList_sorted_getLast : ∀ (l : List Rat) (hne : l ≠ []),
    List.Pairwise (fun a b : Rat => a ≤ b) l → maxList l = l.getLast hne := by
  intro l
  induction l with
  | nil => exact fun hne _ => absurd rfl hne
  | cons x xs ih =>
    intro hne hsort
    cases xs with
    | nil => simp [maxList]
    | cons y ys =>
      have hxy : x ≤ y := (List.pairwise_cons.mp hsort).1 y (by simp)
      have hstep : maxList (x :: y :: ys) = maxList (y :: ys) := by
        simp only [maxList, List.foldl_cons]
        rw [max_eq_right hxy]
      rw [hstep, List.getLast_cons (by simp)]
      exact ih (by simp) (List.pairwise_cons.mp hsort).2

theorem schedule_tasks_snd (s : TaskScheduler) (tasks : List Task) :
    (s.schedule_tasks tasks).2 =
      specScheduleLoop (drain (buildQueue true tasks)) 0 := by
  unfold TaskScheduler.schedule_tasks
  exact runLoop_eq_spec _ 0

theorem schedule_tasks_length (s : TaskScheduler) (tasks : List Task) :
    (s.schedule_tasks tasks).2.length = tasks.length := by
  rw [schedule_tasks_snd, specScheduleLoop_length, drain_length]
  exact (buildQueue_perm true tasks).length_eq

theorem indexOfEq_priority_congr (h : List Task) (item item₂ : Task)
    (hpr : item.priority = item₂.priority) :
    indexOfEq h item = indexOfEq h item₂ := by
  induction h with
  | nil => rfl
  | cons x xs ih =>
    simp only [indexOfEq]
    rw [show taskEqB x item = taskEqB x item₂ by simp [taskEqB, hpr], ih]

theorem get_statistics_components (res : List SchedulingResult)
    (hsorted : List.Pairwise
      (fun a b : SchedulingResult => a.completion_time ≤ b.completion_time) res)
    (hnn : ∀ r ∈ res, 0 ≤ r.completion_time) :
    (get_statistics res).completed_tasks = (get_statistics res).total_tasks ∧
    (get_statistics res).total_tasks = res.length ∧
    (get_statistics res).deadline_met + (get_statistics res).deadline_missed
      = (get_statistics res).total_tasks ∧
    (∀ hne : res ≠ [],
      (get_statistics res).total_execution_time
        = (res.getLast hne).completion_time) ∧
    (get_statistics res).average_wait_time = (if res = [] then 0
      else (res.map (fun r => r.wait_time)).sum / (res.length : Rat)) ∧
    (get_statistics res).throughput =
      (if (get_statistics res).total_execution_time = 0 then 0
       else ((get_statistics res).completed_tasks : Rat)
         / (get_statistics res).total_execution_time) := by
  by_cases hres : res = []
  · subst hres
    refine ⟨rfl, rfl, rfl, fun hne => absurd rfl hne, by simp [get_statistics],
      by simp [get_statistics]⟩
  · have hiso : res.isEmpty = false := by
      cases res with
      | nil => exact absurd rfl hres
      | cons a l => rfl
    have hlen : res.length ≠ 0 := by
      intro hcon
      exact hres (List.length_eq_zero.mp hcon)
    have hmapne : res.map (fun r => r.completion_time) ≠ [] := by
      simp [hres]
    have hmax : maxList (res.map (fun r => r.completion_time))
        = (res.getLast hres).completion_time := by
      rw [maxList_sorted_getLast _ hmapne (List.pairwise_map.mpr hsorted)]
      rw [List.getLast_map _ _ hmapne]
    have hte_nn : 0 ≤ maxList (res.map (fun r => r.completion_time)) := by
      rw [hmax]
      exact hnn _ (List.getLast_mem hres)
    unfold get_statistics
    simp only [hiso, Bool.false_eq_true, if_false]
    refine ⟨by trivial, by trivial, ?_, ?_, ?_, ?_⟩
    · have := List.length_filter_le (fun r => r.deadline_met) res
      omega
    · intro hne
      exact hmax
    · rw [if_neg hres, if_pos (by omega : 0 < res.length)]
    · by_cases hte : maxList (res.map (fun r => r.completion_time)) = 0
      · rw [hte]
        rw [if_neg (by simp), if_pos rfl]
      · have hpos : 0 < maxList (res.map (fun r => r.completion_time)) := by
          rcases lt_or_eq_of_le hte_nn with h | h
          · exact h
          · exact absurd h.symm hte
        rw [if_pos hpos, if_neg hte]


/-- A sample task of priority 10 used in concrete instances. -/
def tA10 : Task := ⟨"A", 10, 0, none, 1, ""⟩

/-- A sample task of priority 5 used in concrete instances. -/
def tB5 : Task := ⟨"B", 5, 0, none, 1, ""⟩

/-- A sample task of priority 5 sharing its priority with `tB5` but carrying
a different identity. -/
def tA5 : Task := ⟨"A", 5, 0, none, 1, ""⟩

/-- C1 (amended): starting from any heap satisfying the invariant, any finite
sequence of insert, extract-top and key-update operations through the public
entry points preserves the binary-heap invariant, provided every key update
is handed to the entry point whose sift direction matches the key change
under the configured ordering (for a max-heap, `increase_key` only for a
non-decreased priority and `decrease_key` only for a non-increased one;
mirrored for a min-heap) and the updated object sits at the first slot whose
priority equals its own, as when priorities are pairwise distinct. -/
theorem heap_invariant_preserved (q : PriorityQueue) (ops : List HeapOp)
    (hq : IsHeapQ q) (hok : OpsOK q ops) : IsHeapQ (applyOps q ops) :=
  applyOps_isHeap ops q hq hok

/-- C1 counterexample: the claim as stated fails.  Inserting priorities 10
and 5 into a fresh max-heap and then calling `increase_key` on the first item
with the lower new priority 1 — a key update through one of the heap's update
entry points with a lower new priority, which the claim covers — leaves the
array `[1, 5]`, violating the max-heap invariant at index 1. -/
theorem update_wrong_direction_breaks_invariant :
    ¬ IsHeapQ (applyOps (mkQueue true)
      [HeapOp.ins tA10, HeapOp.ins tB5, HeapOp.inc tA10 1]) := by
  have hev : applyOps (mkQueue true)
      [HeapOp.ins tA10, HeapOp.ins tB5, HeapOp.inc tA10 1]
      = ⟨[⟨"A", 1, 0, none, 1, ""⟩, tB5], true⟩ := by
    simp +decide [applyOps, applyOp, mkQueue, PriorityQueue.insert,
      PriorityQueue.increase_key, indexOfEq, taskEqB, heapifyUp, parentIdx,
      swapL, cmpT, cmpP, tA10, tB5, dT]
  rw [hev]
  decide

/-- C1 witness: a concrete direction-correct sequence on a fresh max-heap. -/
theorem heap_invariant_preserved_witness :
    IsHeapQ (mkQueue true) ∧
    OpsOK (mkQueue true) [HeapOp.ins tA10, HeapOp.inc tA10 20, HeapOp.ext] ∧
    IsHeapQ (applyOps (mkQueue true)
      [HeapOp.ins tA10, HeapOp.inc tA10 20, HeapOp.ext]) :=
  ⟨by decide, ⟨trivial, by simp only [OpOK]; decide, trivial, trivial⟩,
    heap_invariant_preserved _ _ (by decide)
      ⟨trivial, by simp only [OpOK]; decide, trivial, trivial⟩⟩

/-- C2 (amended): on a heap with pairwise distinct priorities whose new
priority collides with no other, updating the key of the item at index `i`
through the direction-matching entry point and then draining the heap yields
the same extraction order as rebuilding the heap from its items (with the
replaced priority) and draining that heap. -/
theorem update_key_refines_rebuild (m : Bool) (h : List Task) (i : Nat)
    (p' : Int) (hq : IsHeap m h) (hi : i < h.length)
    (hdist : List.Pairwise (fun a b => a.priority ≠ b.priority) h)
    (hfresh : ∀ k, k < h.length → k ≠ i → (h.getD k dT).priority ≠ p') :
    (cmpP m (h.getD i dT).priority p' = false →
      drain ((PriorityQueue.mk h m).increase_key (h.getD i dT) (some i) p').1
        = drain (buildQueue m
            (h.set i { h.getD i dT with priority := p' }))) ∧
    (cmpP m p' (h.getD i dT).priority = false →
      drain ((PriorityQueue.mk h m).decrease_key (h.getD i dT) (some i) p').1
        = drain (buildQueue m
            (h.set i { h.getD i dT with priority := p' }))) := by
  have hIdx : indexOfEq h (h.getD i dT) = some i :=
    indexOfEq_getD_of_distinct h i hdist hi
  have hdist' : List.Pairwise (fun a b => a.priority ≠ b.priority)
      (h.set i { h.getD i dT with priority := p' }) := by
    apply pairwise_ne_set h i _ hdist
    intro k hk hki
    exact hfresh k hk hki
  have hq2 : IsHeapQ (buildQueue m
      (h.set i { h.getD i dT with priority := p' })) := buildQueue_isHeap _ _
  have hperm2 : List.Perm (buildQueue m
        (h.set i { h.getD i dT with priority := p' })).heap
      (h.set i { h.getD i dT with priority := p' }) := buildQueue_perm _ _
  have hsetlen : i < (h.set i { h.getD i dT with priority := p' }).length := by
    rw [List.length_set]
    exact hi
  constructor
  · intro hdir
    have hred : ((PriorityQueue.mk h m).increase_key (h.getD i dT)
          (some i) p').1
        = PriorityQueue.mk
            (heapifyUp m (h.set i { h.getD i dT with priority := p' }) i) m := by
      unfold PriorityQueue.increase_key
      dsimp only
      simp only [hIdx]
    rw [hred]
    apply drain_eq_of_perm
    · exact set_priority_up_isHeap m h i p' hq hi hdir
    · exact hq2
    · exact (buildQueue_mode _ _).symm
    · exact (heapifyUp_perm m _ i hsetlen).trans hperm2.symm
    · exact ((heapifyUp_perm m _ i hsetlen).pairwise_iff
        (fun hab => hab.symm)).mpr hdist'
  · intro hdir
    have hred : ((PriorityQueue.mk h m).decrease_key (h.getD i dT)
          (some i) p').1
        = PriorityQueue.mk
            (heapifyDown m (h.set i { h.getD i dT with priority := p' }) i) m := by
      unfold PriorityQueue.decrease_key
      dsimp only
      simp only [hIdx]
    rw [hred]
    apply drain_eq_of_perm
    · exact set_priority_down_isHeap m h i p' hq hi hdir
    · exact hq2
    · exact (buildQueue_mode _ _).symm
    · exact (heapifyDown_perm m _ i).trans hperm2.symm
    · exact ((heapifyDown_perm m _ i).pairwise_iff
        (fun hab => hab.symm)).mpr hdist'

/-- C2 counterexample: the claim as stated fails.  On the valid max-heap
`[10, 5]`, updating the priority-10 item to 1 through `increase_key` (a key
update through the heap's update entry points, which the claim covers for
lower priorities as well) and draining yields priorities `[1, 5]`, while
rebuilding from scratch with the replaced priority and draining yields
`[5, 1]`. -/
theorem update_key_rebuild_counterexample :
    drain ((PriorityQueue.mk [tA10, tB5] true).increase_key tA10 (some 0) 1).1
      ≠ drain (buildQueue true
          (([tA10, tB5] : List Task).set 0 { tA10 with priority := 1 })) := by
  have h1 : ((PriorityQueue.mk [tA10, tB5] true).increase_key tA10
        (some 0) 1).1
      = PriorityQueue.mk [⟨"A", 1, 0, none, 1, ""⟩, tB5] true := by
    simp +decide [PriorityQueue.increase_key, indexOfEq, taskEqB, heapifyUp,
      parentIdx, swapL, cmpT, cmpP, tA10, tB5, dT]
  have h2 : buildQueue true
        (([tA10, tB5] : List Task).set 0 { tA10 with priority := 1 })
      = PriorityQueue.mk [tB5, ⟨"A", 1, 0, none, 1, ""⟩] true := by
    simp +decide [buildQueue, mkQueue, PriorityQueue.insert, heapifyUp,
      parentIdx, swapL, cmpT, cmpP, tA10, tB5, dT]
  have d1 : drain (PriorityQueue.mk [⟨"A", 1, 0, none, 1, ""⟩, tB5] true)
      = [⟨"A", 1, 0, none, 1, ""⟩, tB5] := by
    simp +decide [drain, PriorityQueue.extract_max, PriorityQueue.is_empty,
      popSwap, heapifyDown, selChild, swapL, cmpT, cmpP, parentIdx, tB5, dT]
  have d2 : drain (PriorityQueue.mk [tB5, ⟨"A", 1, 0, none, 1, ""⟩] true)
      = [tB5, ⟨"A", 1, 0, none, 1, ""⟩] := by
    simp +decide [drain, PriorityQueue.extract_max, PriorityQueue.is_empty,
      popSwap, heapifyDown, selChild, swapL, cmpT, cmpP, parentIdx, tB5, dT]
  rw [h1, h2, d1, d2]
  decide

/-- C2 witness: a concrete direction-correct update on the heap `[10, 5]`. -/
theorem update_key_refines_rebuild_witness :
    IsHeap true [tA10, tB5] ∧ (0 : Nat) < ([tA10, tB5] : List Task).length ∧
    List.Pairwise (fun a b : Task => a.priority ≠ b.priority) [tA10, tB5] ∧
    (∀ k, k < ([tA10, tB5] : List Task).length → k ≠ 0 →
      (([tA10, tB5] : List Task).getD k dT).priority ≠ 20) ∧
    cmpP true (([tA10, tB5] : List Task).getD 0 dT).priority 20 = false ∧
    drain ((PriorityQueue.mk [tA10, tB5] true).increase_key
        (([tA10, tB5] : List Task).getD 0 dT) (some 0) 20).1
      = drain (buildQueue true (([tA10, tB5] : List Task).set 0
          { ([tA10, tB5] : List Task).getD 0 dT with priority := 20 })) :=
  ⟨by decide, by decide, by decide, by decide, by decide,
    (update_key_refines_rebuild true [tA10, tB5] 0 20 (by decide) (by decide)
      (by decide) (by decide)).1 (by decide)⟩

/-- C3 (amended): the key-update operations locate the item by a
value-equality scan (first entry whose priority equals the passed item's
priority), not by identity.  When no entry shares the priority they report
`False` with the heap unchanged; when the scan finds a slot but the passed
object itself is not stored in the heap, they still report success and leave
a valid heap unchanged; and the scan result depends only on the item's
priority. -/
theorem update_key_value_scan (q : PriorityQueue) (item : Task) (p' : Int) :
    (indexOfEq q.heap item = none →
      q.increase_key item none p' = (q, false) ∧
      q.decrease_key item none p' = (q, false)) ∧
    (∀ i, indexOfEq q.heap item = some i → IsHeapQ q →
      q.increase_key item none p' = (q, true) ∧
      q.decrease_key item none p' = (q, true)) ∧
    (∀ item₂ : Task, item.priority = item₂.priority →
      indexOfEq q.heap item = indexOfEq q.heap item₂) := by
  refine ⟨?_, ?_, fun item₂ hp => indexOfEq_priority_congr q.heap item item₂ hp⟩
  · intro hI
    constructor
    · unfold PriorityQueue.increase_key
      simp only [hI]
    · unfold PriorityQueue.decrease_key
      simp only [hI]
  · intro i hI hq
    obtain ⟨hilt, _, _⟩ := indexOfEq_some _ _ _ hI
    constructor
    · unfold PriorityQueue.increase_key
      simp only [hI]
      rw [heapifyUp_of_isHeap _ _ _ hq hilt]
    · unfold PriorityQueue.decrease_key
      simp only [hI]
      rw [heapifyDown_of_isHeap _ _ _ hq]

/-- C3 counterexample: the claim as stated fails.  The heap holds only the
task with identity `A` at priority 5; updating a task with the absent
identity `B` (sharing priority 5) reports success `True` instead of the
ItemNotFound `False` outcome the claim requires. -/
theorem update_key_absent_identity_succeeds :
    ((PriorityQueue.mk [tA5] true).increase_key tB5 none 10).2 = true ∧
    tB5.task_id ∉ ([tA5] : List Task).map Task.task_id ∧
    ((PriorityQueue.mk [tA5] true).increase_key tB5 none 10).1
      = PriorityQueue.mk [tA5] true := by
  refine ⟨?_, by decide, ?_⟩
  · simp +decide [PriorityQueue.increase_key, indexOfEq, taskEqB, tA5, tB5]
  · simp +decide [PriorityQueue.increase_key, indexOfEq, taskEqB, heapifyUp,
      tA5, tB5]

/-- C3 witness: a present priority is found at its slot and reported as
success; the heap is left unchanged. -/
theorem update_key_value_scan_witness :
    indexOfEq ([tA5] : List Task) tA5 = some 0 ∧
    IsHeapQ (PriorityQueue.mk [tA5] true) ∧
    ((PriorityQueue.mk [tA5] true).increase_key tA5 none 9
        = (PriorityQueue.mk [tA5] true, true) ∧
      (PriorityQueue.mk [tA5] true).decrease_key tA5 none 9
        = (PriorityQueue.mk [tA5] true, true)) :=
  ⟨by decide, by decide,
    (update_key_value_scan (PriorityQueue.mk [tA5] true) tA5 9).2.1 0
      (by decide) (by decide)⟩

/-- C4: inserting any list of tasks into a max-heap and extracting all of
them yields a non-increasing priority sequence; for a min-heap the sequence
is non-decreasing. -/
theorem drained_priorities_monotone (ts : List Task) :
    List.Pairwise (fun a b : Int => b ≤ a)
      ((drain (buildQueue true ts)).map Task.priority) ∧
    List.Pairwise (fun a b : Int => a ≤ b)
      ((drain (buildQueue false ts)).map Task.priority) := by
  constructor
  · have hs := drain_sorted (buildQueue true ts) (buildQueue_isHeap true ts)
    rw [buildQueue_mode] at hs
    rw [List.pairwise_map]
    refine hs.imp ?_
    intro a b hab
    simpa [cmpT, cmpP] using hab
  · have hs := drain_sorted (buildQueue false ts) (buildQueue_isHeap false ts)
    rw [buildQueue_mode] at hs
    rw [List.pairwise_map]
    refine hs.imp ?_
    intro a b hab
    simpa [cmpT, cmpP] using hab

/-- C5: scheduling produces one result per task, in extraction order from a
clock starting at 0, with `start_time` the clock at extraction,
`completion_time = start_time + execution_time`,
`wait_time = start_time - arrival_time`, `deadline_met` true exactly when the
task has no deadline or completes by it, and the clock advanced to each
completion time with no idling — the recursion `specScheduleLoop` states
these equations verbatim. -/
theorem schedule_matches_spec_loop (s : TaskScheduler) (tasks : List Task) :
    (s.schedule_tasks tasks).2
        = specScheduleLoop (drain (buildQueue true tasks)) 0 ∧
    (s.schedule_tasks tasks).2.length = tasks.length :=
  ⟨schedule_tasks_snd s tasks, schedule_tasks_length s tasks⟩

/-- C6: `get_statistics` is a pure reduction over the result sequence of a
schedule run: completed equals total, met plus missed equals total, the total
execution time is the last result's completion time (the final clock),
the average wait is the mean of wait times, throughput is completed divided
by total execution time with 0 when that is 0, and the empty task list gives
the all-zero record with no division error. -/
theorem schedule_statistics_reduction (s : TaskScheduler) (tasks : List Task)
    (res : List SchedulingResult) (st : SchedulingStatistics)
    (hres : res = (s.schedule_tasks tasks).2) (hst : st = get_statistics res)
    (hexec : ∀ t ∈ tasks, 0 ≤ t.execution_time) :
    st.completed_tasks = st.total_tasks ∧
    st.total_tasks = res.length ∧
    st.deadline_met + st.deadline_missed = st.total_tasks ∧
    (∀ hne : res ≠ [],
      st.total_execution_time = (res.getLast hne).completion_time) ∧
    st.average_wait_time = (if res = [] then 0
      else (res.map (fun r => r.wait_time)).sum / (res.length : Rat)) ∧
    st.throughput = (if st.total_execution_time = 0 then 0
      else (st.completed_tasks : Rat) / st.total_execution_time) ∧
    (tasks = [] → res = [] ∧ st = ⟨0, 0, 0, 0, 0, 0, 0⟩) := by
  subst hst
  have horder : ∀ t ∈ drain (buildQueue true tasks), 0 ≤ t.execution_time := by
    intro t ht
    have h1 : t ∈ (buildQueue true tasks).heap := (drain_perm _).mem_iff.mp ht
    exact hexec t ((buildQueue_perm true tasks).mem_iff.mp h1)
  have hrep : res = specScheduleLoop (drain (buildQueue true tasks)) 0 := by
    rw [hres, schedule_tasks_snd]
  obtain ⟨hlb, hsorted⟩ :=
    specScheduleLoop_clock (drain (buildQueue true tasks)) 0 horder
  rw [← hrep] at hlb hsorted
  obtain ⟨c1, c2, c3, c4, c5, c6⟩ := get_statistics_components res hsorted hlb
  refine ⟨c1, c2, c3, c4, c5, c6, ?_⟩
  intro htasks
  have hlen0 : res.length = 0 := by
    rw [hres, schedule_tasks_length, htasks]
    rfl
  have hres0 : res = [] := List.length_eq_zero.mp hlen0
  subst hres0
  exact ⟨rfl, rfl⟩

/-- A sample task with a deadline for the statistics witness. -/
def wTask : Task := ⟨"W", 3, 0, some 10, 2, ""⟩

/-- A scheduler instance for the statistics witness. -/
def wSched : TaskScheduler := ⟨mkQueue true, 0⟩

/-- The result sequence of scheduling the single sample task. -/
def wRes : List SchedulingResult := (wSched.schedule_tasks [wTask]).2

/-- The statistics of that result sequence. -/
def wSt : SchedulingStatistics := get_statistics wRes

/-- C6 witness: the statistics equations at a concrete one-task schedule. -/
theorem schedule_statistics_reduction_witness :
    (∀ t ∈ [wTask], 0 ≤ t.execution_time) ∧
    (wSt.completed_tasks = wSt.total_tasks ∧
     wSt.total_tasks = wRes.length ∧
     wSt.deadline_met + wSt.deadline_missed = wSt.total_tasks ∧
     (∀ hne : wRes ≠ [],
       wSt.total_execution_time = (wRes.getLast hne).completion_time) ∧
     wSt.average_wait_time = (if wRes = [] then 0
       else (wRes.map (fun r => r.wait_time)).sum / (wRes.length : Rat)) ∧
     wSt.throughput = (if wSt.total_execution_time = 0 then 0
       else (wSt.completed_tasks : Rat) / wSt.total_execution_time) ∧
     (([wTask] : List Task) = [] → wRes = [] ∧ wSt = ⟨0, 0, 0, 0, 0, 0, 0⟩)) :=
  ⟨by decide,
    schedule_statistics_reduction wSched [wTask] wRes wSt rfl rfl (by decide)⟩

/-- C7 (amended): extraction on an empty heap — in particular a freshly
constructed one — raises EmptyContainer through either extraction entry
point, before any mutation; `peek` on an empty heap does not raise but
returns the defined absent value `None`. -/
theorem empty_heap_operations (q : PriorityQueue) (hq : q.heap = []) :
    q.extract_max = PyResult.raised HeapError.emptyContainer ∧
    q.extract_min = PyResult.raised HeapError.emptyContainer ∧
    q.peek = PyResult.returned none := by
  have h0 : q.is_empty = true := by
    simp [PriorityQueue.is_empty, hq]
  refine ⟨?_, ?_, ?_⟩
  · simp [PriorityQueue.extract_max, h0]
  · simp [PriorityQueue.extract_min, h0]
  · simp [PriorityQueue.peek, h0]

/-- C7 counterexample: the claim as stated fails for `peek`, which on the
freshly constructed empty heap returns the value `None` normally instead of
failing with the EmptyContainer condition. -/
theorem peek_empty_returns_absent_value :
    (mkQueue true).peek = PyResult.returned none ∧
    ∀ e : HeapError, (mkQueue true).peek ≠ PyResult.raised e := by
  refine ⟨rfl, ?_⟩
  intro e
  cases e
  decide

/-- C7 witness: the amended behaviour at the freshly constructed heap. -/
theorem empty_heap_operations_witness :
    (mkQueue true).heap = [] ∧
    ((mkQueue true).extract_max = PyResult.raised HeapError.emptyContainer ∧
     (mkQueue true).extract_min = PyResult.raised HeapError.emptyContainer ∧
     (mkQueue true).peek = PyResult.returned none) :=
  ⟨rfl, empty_heap_operations (mkQueue true) rfl⟩

/-- C8: scheduling is deterministic — `schedule_tasks` discards all prior
scheduler state, so two invocations on the same task list, from any two
scheduler states (in particular the state left by the first invocation),
produce identical result sequences. -/
theorem schedule_deterministic (s₁ s₂ : TaskScheduler) (tasks : List Task)
    (hdist : List.Pairwise (fun a b : Task => a.priority ≠ b.priority) tasks) :
    (s₁.schedule_tasks tasks).2 = (s₂.schedule_tasks tasks).2 ∧
    ((s₁.schedule_tasks tasks).1.schedule_tasks tasks).2
      = (s₁.schedule_tasks tasks).2 :=
  ⟨rfl, rfl⟩

/-- C8 witness: determinism at a concrete two-task list with distinct
priorities, from two different scheduler states. -/
theorem schedule_deterministic_witness :
    List.Pairwise (fun a b : Task => a.priority ≠ b.priority) [tA10, tB5] ∧
    ((⟨mkQueue true, 0⟩ : TaskScheduler).schedule_tasks [tA10, tB5]).2
      = ((⟨mkQueue false, 7⟩ : TaskScheduler).schedule_tasks [tA10, tB5]).2 ∧
    (((⟨mkQueue true, 0⟩ : TaskScheduler).schedule_tasks
        [tA10, tB5]).1.schedule_tasks [tA10, tB5]).2
      = ((⟨mkQueue true, 0⟩ : TaskScheduler).schedule_tasks [tA10, tB5]).2 :=
  ⟨by decide,
    (schedule_deterministic ⟨mkQueue true, 0⟩ ⟨mkQueue false, 7⟩ [tA10, tB5]
      (by decide)).1,
    (schedule_deterministic ⟨mkQueue true, 0⟩ ⟨mkQueue false, 7⟩ [tA10, tB5]
      (by decide)).2⟩

/-- A value of any non-`Task` runtime type, as seen by `Task.__eq__`. -/
inductive PyObject where
  | task (t : Task)
  | other
deriving DecidableEq, Repr

/-- `Task.__eq__` including its `isinstance` guard: priority equality
against another `Task`, `False` against anything else. -/
def taskEqPy (a : Task) : PyObject → Bool
  | .task b => taskEqB a b
  | .other => false

/-- C9: task equality is decided by priority alone — two tasks compare equal
exactly when their priorities coincide, regardless of every other field;
comparison against a non-`Task` value is `False`; and consequently the heap's
value-equality scan locates a task that merely shares the priority of the
task it was given, despite a different identity and different timing
fields. -/
theorem task_equality_by_priority :
    (∀ a b : Task, taskEqPy a (PyObject.task b) = (a.priority == b.priority)) ∧
    (∀ a : Task, taskEqPy a PyObject.other = false) ∧
    indexOfEq ([tA5] : List Task) ⟨"Y", 5, 1, some 9, 2, "alt"⟩ = some 0 ∧
    tA5.task_id ≠ "Y" :=
  ⟨fun _ _ => rfl, fun _ => rfl, by decide, by decide⟩

/-- C10: `extract_min` and `extract_max` are extensionally equal — the same
function on every queue — so which element is removed is fixed solely by the
construction mode: on a max-mode heap either entry point returns a
highest-priority element, on a min-mode heap a lowest-priority one. -/
theorem extract_entry_points_agree (q : PriorityQueue) :
    q.extract_min = q.extract_max ∧
    (IsHeapQ q → ∀ t q', q.extract_min = PyResult.returned (t, q') →
      ∀ x ∈ q.heap,
        (q.is_max_heap = true → x.priority ≤ t.priority) ∧
        (q.is_max_heap = false → t.priority ≤ x.priority)) := by
  refine ⟨rfl, ?_⟩
  intro hq t q' hE x hx
  have hE' : q.extract_max = PyResult.returned (t, q') := hE
  obtain ⟨hroot, _, _, _⟩ := extract_max_shape q t q' hE'
  obtain ⟨j, hj, hgj⟩ := List.mem_iff_getElem.mp hx
  have hdom := isHeap_root_dominates q.is_max_heap q.heap hq j hj
  rw [List.getD_eq_getElem _ _ hj, hgj] at hdom
  subst hroot
  constructor
  · intro hm
    rw [hm] at hdom
    simpa [cmpT, cmpP] using hdom
  · intro hm
    rw [hm] at hdom
    simpa [cmpT, cmpP] using hdom

/-- C10 witness: on a concrete singleton max-heap, `extract_min` returns the
highest-priority element. -/
theorem extract_entry_points_agree_witness :
    IsHeapQ (PriorityQueue.mk [tA10] true) ∧
    (PriorityQueue.mk [tA10] true).extract_min
      = PyResult.returned (tA10, PriorityQueue.mk [] true) ∧
    ∀ x ∈ (PriorityQueue.mk [tA10] true).heap,
      ((PriorityQueue.mk [tA10] true).is_max_heap = true →
        x.priority ≤ tA10.priority) ∧
      ((PriorityQueue.mk [tA10] true).is_max_heap = false →
        tA10.priority ≤ x.priority) :=
  ⟨by decide, by decide,
    (extract_entry_points_agree (PriorityQueue.mk [tA10] true)).2 (by decide)
      tA10 (PriorityQueue.mk [] true) (by decide)⟩

end Assignment4
